import Mathlib

/-! # vfile-util-git-history: the upward search for a git folder and the history read

A shallow embedding of `file-util-git-history.js`.  The three exported
functions `resolveGitFolder`, `readHistory` and `gitHistory` are translated
statement by statement.  The collaborators they call are modelled as follows.

* Node's POSIX `path` functions (`isAbsolute`, `parse`, `resolve`, `relative`)
  are pure functions over character lists.  `resolve` follows Node's loop over
  its arguments and normalizes segment by segment; `parse` scans from the
  right as Node does; `relative` is given by its meaning on segments.
* `fs.access` and the nodegit engine are fields of a `World`; every call to
  one of them is recorded, in order, in a list of `Event`s returned next to
  the result, so that "before any file-system access" is a statement about
  that list.
-/

namespace GitHistory

/-! ## Paths -/

/-- A path is a JavaScript string, kept as its list of characters. -/
abbrev Path := List Char

/-- Node `path.posix.isAbsolute`: the string is non-empty and starts with `/`. -/
def isAbsolute (path : Path) : Bool :=
  match path with
  | [] => false
  | c :: _ => c == '/'

/-- Put a character in front of the first piece. -/
def consHead (c : Char) : List Path → List Path
  | [] => [[c]]
  | s :: ss => (c :: s) :: ss

/-- Cut a string at every `/`; the pieces may be empty. -/
def splitSlash : Path → List Path
  | [] => [[]]
  | c :: cs => if c = '/' then [] :: splitSlash cs else consHead c (splitSlash cs)

/-- Glue segments with a single `/` between neighbours. -/
def joinSlash : List Path → Path
  | [] => []
  | [s] => s
  | s :: t :: rest => s ++ '/' :: joinSlash (t :: rest)

/-- One separator-delimited piece seen by Node's `normalizeString`, applied to
the segments kept so far: empty pieces and `.` are skipped, `..` removes the
last kept segment unless there is none or it is itself `..` (then it is kept
only when `allowAboveRoot`), anything else is appended. -/
def normalizeStep (allowAboveRoot : Bool) (res : List Path) (seg : Path) : List Path :=
  if seg = [] ∨ seg = ['.'] then res
  else if seg = ['.', '.'] then
    if res ≠ [] ∧ res.getLast? ≠ some ['.', '.'] then res.dropLast
    else if allowAboveRoot then res ++ [['.', '.']]
    else res
  else res ++ [seg]

/-- Segments kept by Node's `normalizeString`. -/
def normalizeSegs (allowAboveRoot : Bool) (path : Path) : List Path :=
  (splitSlash path).foldl (normalizeStep allowAboveRoot) []

/-- Node's internal `normalizeString(path, allowAboveRoot, "/")`. -/
def normalizeString (path : Path) (allowAboveRoot : Bool) : Path :=
  joinSlash (normalizeSegs allowAboveRoot path)

/-- The right-to-left loop of Node `path.posix.resolve`: `args` are the
arguments still to visit, last one first; after them comes the working
directory.  Returns the concatenated path and whether it is absolute. -/
def resolveLoop (cwd : Path) : List Path → Path → Path × Bool
  | [], resolvedPath =>
    if cwd = [] then (resolvedPath, false)
    else (cwd ++ '/' :: resolvedPath, isAbsolute cwd)
  | path :: rest, resolvedPath =>
    if path = [] then resolveLoop cwd rest resolvedPath
    else if isAbsolute path then (path ++ '/' :: resolvedPath, true)
    else resolveLoop cwd rest (path ++ '/' :: resolvedPath)

/-- Node `path.posix.resolve(...args)` with working directory `cwd`. -/
def resolve (cwd : Path) (args : List Path) : Path :=
  let r := resolveLoop cwd args.reverse []
  let resolvedPath := normalizeString r.1 (!r.2)
  if r.2 then '/' :: resolvedPath
  else if resolvedPath ≠ [] then resolvedPath
  else ['.']

/-- The two fields of Node `path.posix.parse` that the program reads. -/
structure ParsedPath where
  root : Path
  dir : Path
  deriving DecidableEq, Repr

/-- Node `path.posix.parse`, restricted to `root` and `dir`.  The scan runs
from the right over the characters at index `start` and above: trailing
separators are skipped, then the last component, and the separator found
there (if any) ends `dir`. -/
def parse (path : Path) : ParsedPath :=
  if path = [] then ⟨[], []⟩
  else
    let isAbs := isAbsolute path
    let start := if isAbs then 1 else 0
    let root : Path := if isAbs then ['/'] else []
    let afterSlashes := ((path.drop start).reverse).dropWhile (fun c => c == '/')
    let afterBase := afterSlashes.dropWhile (fun c => c != '/')
    match afterBase with
    | [] => ⟨root, if isAbs then ['/'] else []⟩
    | _ :: before => ⟨root, path.take (start + before.length)⟩

/-- Length of the longest common initial run of two segment lists. -/
def commonSegs : List Path → List Path → Nat
  | a :: as, b :: bs => if a = b then commonSegs as bs + 1 else 0
  | _, _ => 0

/-- Node `path.posix.relative(from, to)`: both are resolved, the common
leading segments are dropped, one `..` is emitted per remaining segment of
`from`, followed by the remaining segments of `to`. -/
def relative (cwd : Path) (src dst : Path) : Path :=
  if src = dst then []
  else
    let src1 := resolve cwd [src]
    let dst1 := resolve cwd [dst]
    if src1 = dst1 then []
    else
      let f := normalizeSegs true src1
      let t := normalizeSegs true dst1
      let k := commonSegs f t
      joinSlash (List.replicate (f.length - k) ['.', '.'] ++ t.drop k)

/-! ## The world outside the module -/

/-- Error object with which `fs.access` rejects (its code, such as ENOENT). -/
abbrev FsError := String

/-- Error raised by the nodegit engine. -/
abbrev EngineError := String

/-- Handle of a repository opened by the engine. -/
structure Repository where
  handle : Nat
  deriving DecidableEq, Repr

/-- The sorting modes of `Revwalk.SORT`. -/
inductive SortMode where
  | none
  | topological
  | time
  | reverse
  deriving DecidableEq, Repr

/-- State of a nodegit revision walker: its repository, whether HEAD has been
pushed as a starting point, and the sorting mode. -/
structure Revwalk where
  repo : Repository
  pushedHead : Bool
  sort : SortMode
  deriving DecidableEq, Repr

/-- One record of the list that nodegit returns from `fileHistoryWalk`; the
module never looks inside it.  `time` is the commit time. -/
structure HistoryEntry where
  sha : String
  time : Int
  deriving DecidableEq, Repr

/-- Everything the module reaches through `fs` and `nodegit`, plus the
working directory that Node's `path.resolve` falls back on. -/
structure World where
  cwd : Path
  /-- Node `fs.access(p)`: `none` when it succeeds, the error otherwise. -/
  access : Path → Option FsError
  /-- Engine call `Repository.open(p)`. -/
  repositoryOpen : Path → Except EngineError Repository
  /-- Engine call `walker.pushHead()`: `none` when HEAD resolves, the error otherwise. -/
  pushHead : Repository → Option EngineError
  /-- Engine call `walker.fileHistoryWalk(path, maxCount)`. -/
  fileHistoryWalk : Revwalk → Path → Nat → Except EngineError (List HistoryEntry)

/-- A call that leaves the module, in the order the calls are made. -/
inductive Event where
  | access (path : Path)
  | repositoryOpen (path : Path)
  | createRevWalk
  | pushHead
  | sorting (mode : SortMode)
  | fileHistoryWalk (path : Path) (maxCount : Nat)
  deriving DecidableEq, Repr

/-- The ways a call of the module can reject. -/
inductive Err where
  /-- An `AssertionError` thrown by `assert` with the given message. -/
  | assertion (message : String)
  /-- Rejection of `fs.access`, passed on unchanged. -/
  | fs (e : FsError)
  /-- Rejection coming from nodegit, passed on unchanged. -/
  | engine (e : EngineError)
  /-- The recursion budget of the model ran out (no run of the program ends so). -/
  | diverged
  deriving DecidableEq, Repr

deriving instance DecidableEq for Except

/-- Outcome of an `async` function together with the outside calls it made. -/
abbrev Outcome (α : Type) := Except Err α × List Event

/-- The `.git` entry name. -/
def dotGit : Path := ['.', 'g', 'i', 't']

/-- The parent-directory segment `..`. -/
def dotDot : Path := ['.', '.']

/-! ## The module -/

/-- Source `resolveGitFolder`, with the recursion depth bounded by `fuel`. -/
def resolveGitFolderFuel (w : World) : Nat → Path → Outcome Path
  | 0, _ => (.error .diverged, [])
  | fuel + 1, path =>
    -- assert(isAbsolute(path), "git path must be absolute")
    if isAbsolute path = false then (.error (.assertion "git path must be absolute"), [])
    else
      -- const { root, dir } = parse(path); assert(root !== dir, "git folder not found")
      let parsed := parse path
      if parsed.root = parsed.dir then (.error (.assertion "git folder not found"), [])
      else
        -- try { await accessAsync(resolve(path, ".git")); return path }
        let gitPath := resolve w.cwd [path, dotGit]
        match w.access gitPath with
        | none => (.ok path, [Event.access gitPath])
        | some _ =>
          -- catch (err) { return resolveGitFolder(resolve(path, "..")) }
          let r := resolveGitFolderFuel w fuel (resolve w.cwd [path, dotDot])
          (r.1, Event.access gitPath :: r.2)

/-- Source `resolveGitFolder`.  The budget is never used up, see
`resolveGitFolder_terminates`. -/
def resolveGitFolder (w : World) (path : Path) : Outcome Path :=
  resolveGitFolderFuel w (path.length + 2) path

/-- Source `readHistory`. -/
def readHistory (w : World) (filePath gitPath : Path) : Outcome (List HistoryEntry) :=
  -- await accessAsync(filePath)
  match w.access filePath with
  | some e => (.error (.fs e), [Event.access filePath])
  | none =>
    -- await accessAsync(gitPath)
    match w.access gitPath with
    | some e => (.error (.fs e), [Event.access filePath, Event.access gitPath])
    | none =>
      -- const repo = await Repository.open(gitPath)
      match w.repositoryOpen gitPath with
      | .error e =>
        (.error (.engine e),
          [Event.access filePath, Event.access gitPath, Event.repositoryOpen gitPath])
      | .ok repo =>
        -- const walker = repo.createRevWalk(); walker.pushHead()
        let walker : Revwalk := ⟨repo, false, SortMode.none⟩
        match w.pushHead repo with
        | some e =>
          (.error (.engine e),
            [Event.access filePath, Event.access gitPath, Event.repositoryOpen gitPath,
              Event.createRevWalk, Event.pushHead])
        | none =>
          let walker : Revwalk := { walker with pushedHead := true }
          -- walker.sorting(Revwalk.SORT.TIME)
          let walker : Revwalk := { walker with sort := SortMode.time }
          -- await walker.fileHistoryWalk(relative(gitPath, filePath), 100000)
          let rel := relative w.cwd gitPath filePath
          let events :=
            [Event.access filePath, Event.access gitPath, Event.repositoryOpen gitPath,
              Event.createRevWalk, Event.pushHead, Event.sorting SortMode.time,
              Event.fileHistoryWalk rel 100000]
          match w.fileHistoryWalk walker rel 100000 with
          | .error e => (.error (.engine e), events)
          | .ok history => (.ok history, events)

/-- The `options` argument of `gitHistory`; `gitPath` is `none` when the
property is absent. -/
structure Options where
  gitPath : Option Path := none
  deriving DecidableEq, Repr

/-- JavaScript truthiness of `options.gitPath`: absent and the empty string
are falsy. -/
def truthy : Option Path → Bool
  | none => false
  | some [] => false
  | some (_ :: _) => true

/-- Source `gitHistory`. -/
def gitHistory (w : World) (filePath : Path) (options : Options := {}) :
    Outcome (List HistoryEntry) :=
  -- assert(isAbsolute(filePath), "file path must be absolute")
  if isAbsolute filePath = false then (.error (.assertion "file path must be absolute"), [])
  else
    -- options.gitPath ? options.gitPath : await resolveGitFolder(filePath)
    match options.gitPath, truthy options.gitPath with
    | some gitPath, true =>
      readHistory w filePath gitPath
    | _, _ =>
      match resolveGitFolder w filePath with
      | (.error e, events) => (.error e, events)
      | (.ok gitPath, events) =>
        let r := readHistory w filePath gitPath
        (r.1, events ++ r.2)

/-! ## Example worlds -/

/-- A file system in which exactly the listed paths are accessible, with an
engine that opens every path as repository 0 and returns `history`. -/
def worldOf (accessible : List Path) (history : List HistoryEntry) : World where
  cwd := ['/', 'c', 'w', 'd']
  access p := if p ∈ accessible then none else some "ENOENT"
  repositoryOpen _ := .ok ⟨0⟩
  pushHead _ := none
  fileHistoryWalk _ _ _ := .ok history

/-- The scenario of the specification: a repository at `/repo`, directly below
the file-system root, holding `src/sub/deep/file.txt`. -/
def repoBelowRoot : World :=
  worldOf
    (["/", "/repo", "/repo/.git", "/repo/src", "/repo/src/sub", "/repo/src/sub/deep",
      "/repo/src/sub/deep/file.txt"].map String.toList)
    [⟨"c1", 10⟩]

/-- A repository at `/home/repo` holding `src/a.txt`, with two commits on it. -/
def homeRepo : World :=
  worldOf
    (["/", "/home", "/home/repo", "/home/repo/.git", "/home/repo/src",
      "/home/repo/src/a.txt"].map String.toList)
    [⟨"c3", 30⟩, ⟨"c1", 10⟩]

/-- The tree of `homeRepo` with a second `.git` entry at `/home/repo/src`. -/
def nestedRepo : World :=
  worldOf
    (["/", "/home", "/home/repo", "/home/repo/.git", "/home/repo/src", "/home/repo/src/.git",
      "/home/repo/src/a.txt"].map String.toList)
    [⟨"c3", 30⟩, ⟨"c1", 10⟩]

/-- A tree without any `.git` entry. -/
def noRepo : World :=
  worldOf
    (["/", "/home", "/home/user", "/home/user/notes",
      "/home/user/notes/a.txt"].map String.toList)
    []

/-- A working directory `/cwd` holding the repository `repo` and the file
`a.txt`, reachable under their relative names. -/
def cwdRepo : World :=
  worldOf
    (["/", "/cwd", "/cwd/repo", "/cwd/repo/.git", "/cwd/a.txt", "repo", "repo/.git",
      "a.txt"].map String.toList)
    [⟨"c1", 5⟩]

/-- The tree of `homeRepo` with an engine whose walk, with HEAD pushed and time
sorting set, yields commit `c2` (commit time 10) before its parent `c1`
(commit time 20), and nothing for any other walker state. -/
def skewedRepo : World where
  cwd := ['/', 'c', 'w', 'd']
  access p :=
    if p ∈ ["/", "/home", "/home/repo", "/home/repo/.git", "/home/repo/src",
        "/home/repo/src/a.txt"].map String.toList then none
    else some "ENOENT"
  repositoryOpen _ := .ok ⟨0⟩
  pushHead _ := none
  fileHistoryWalk walker _ _ :=
    if walker.pushedHead = true ∧ walker.sort = SortMode.time then .ok [⟨"c2", 10⟩, ⟨"c1", 20⟩]
    else .ok []

/-! ## Vocabulary of the statements -/

/-- A segment of a normalized path: non-empty, free of `/`, neither `.` nor `..`. -/
def Proper (seg : Path) : Prop :=
  seg ≠ [] ∧ '/' ∉ seg ∧ seg ≠ ['.'] ∧ seg ≠ dotDot

instance : DecidablePred Proper := fun seg => by
  unfold Proper
  exact inferInstance

/-- The absolute path with the given segments; `ofSegs []` is the root `/`. -/
def ofSegs (segs : List Path) : Path := '/' :: joinSlash segs

/-- The segments of a path once normalized (`.`, `..` and repeated separators
resolved, nothing allowed above the root). -/
def segments (path : Path) : List Path := normalizeSegs false path

/-- The directory `k` levels below the root on the way to `path`. -/
def ancestorAt (path : Path) (k : Nat) : Path := ofSegs ((segments path).take k)

/-- The `.git` entry directly inside the directory with the given segments. -/
def gitEntry (segs : List Path) : Path := ofSegs (segs ++ [dotGit])

/-- Consecutive entries are in time-descending order:
`timestamp(c_i) >= timestamp(c_{i+1})`. -/
def descending : List HistoryEntry → Bool
  | a :: b :: rest => decide (b.time ≤ a.time) && descending (b :: rest)
  | _ => true

/-- Consecutive entries are in time-descending order. -/
def Descending (history : List HistoryEntry) : Prop := descending history = true

instance : DecidablePred Descending := fun history =>
  inferInstanceAs (Decidable (descending history = true))

/-! ## Facts about the path functions -/

theorem splitSlash_ne_nil (p : Path) : splitSlash p ≠ [] := by
  cases p with
  | nil => simp [splitSlash]
  | cons c cs =>
    unfold splitSlash
    split
    · simp
    · cases splitSlash cs <;> simp [consHead]

theorem splitSlash_append_slash (a b : Path) :
    splitSlash (a ++ '/' :: b) = splitSlash a ++ splitSlash b := by
  induction a with
  | nil => simp [splitSlash]
  | cons c cs ih =>
    by_cases hc : c = '/'
    · simp [splitSlash, hc, ih]
    · rw [List.cons_append, splitSlash, if_neg hc, ih, splitSlash, if_neg hc]
      cases hs : splitSlash cs with
      | nil => exact absurd hs (splitSlash_ne_nil cs)
      | cons x xs => simp [consHead]

theorem splitSlash_of_not_mem (a : Path) (h : '/' ∉ a) : splitSlash a = [a] := by
  induction a with
  | nil => rfl
  | cons c cs ih =>
    have hc : c ≠ '/' := fun e => h (by simp [e])
    have hcs : '/' ∉ cs := fun e => h (by simp [e])
    simp [splitSlash, hc, ih hcs, consHead]

theorem not_mem_of_mem_splitSlash (p seg : Path) (h : seg ∈ splitSlash p) : '/' ∉ seg := by
  induction p generalizing seg with
  | nil =>
    simp [splitSlash] at h
    simp [h]
  | cons c cs ih =>
    by_cases hc : c = '/'
    · simp only [splitSlash, hc, if_true, List.mem_cons] at h
      rcases h with h | h
      · simp [h]
      · exact ih seg h
    · rw [splitSlash, if_neg hc] at h
      cases hs : splitSlash cs with
      | nil => exact absurd hs (splitSlash_ne_nil cs)
      | cons x xs =>
        rw [hs] at h ih
        simp only [consHead, List.mem_cons] at h
        rcases h with h | h
        · subst h
          have hx := ih x (by simp)
          intro hm
          simp only [List.mem_cons] at hm
          rcases hm with hm | hm
          · exact hc hm.symm
          · exact hx hm
        · exact ih seg (by simp [h])

theorem joinSlash_append_singleton (s : List Path) (x : Path) (hs : s ≠ []) :
    joinSlash (s ++ [x]) = joinSlash s ++ '/' :: x := by
  induction s with
  | nil => exact absurd rfl hs
  | cons a t ih =>
    cases t with
    | nil => simp [joinSlash]
    | cons b u =>
      have := ih (by simp)
      simp only [List.cons_append] at this ⊢
      simp [joinSlash, this]

theorem splitSlash_joinSlash (s : List Path) (hs : s ≠ []) (h : ∀ x ∈ s, '/' ∉ x) :
    splitSlash (joinSlash s) = s := by
  induction s with
  | nil => exact absurd rfl hs
  | cons a t ih =>
    cases t with
    | nil => simpa [joinSlash] using splitSlash_of_not_mem a (h a (by simp))
    | cons b u =>
      have h1 := ih (by simp) (fun x hx => h x (by simp [hx]))
      simp only [joinSlash, splitSlash_append_slash, h1]
      rw [splitSlash_of_not_mem a (h a (by simp))]
      rfl

/-! ### Normalization -/

theorem getLast?_ne_dotDot (res : List Path) (h : ∀ x ∈ res, Proper x) :
    res.getLast? ≠ some ['.', '.'] := by
  intro e
  have hm : ['.', '.'] ∈ res := List.mem_of_getLast?_eq_some e
  exact (h _ hm).2.2.2 rfl

theorem normalizeStep_dotDot (res : List Path) (h : ∀ x ∈ res, Proper x) :
    normalizeStep false res dotDot = res.dropLast := by
  have h1 := getLast?_ne_dotDot res h
  by_cases hr : res = []
  · subst hr
    simp [normalizeStep, dotDot]
  · simp [normalizeStep, dotDot, hr, h1]

theorem normalizeStep_proper_any (b : Bool) (res : List Path) (seg : Path) (hseg : Proper seg) :
    normalizeStep b res seg = res ++ [seg] := by
  obtain ⟨h1, _, h3, h4⟩ := hseg
  simp only [dotDot] at h4
  simp [normalizeStep, h1, h3, h4]

theorem normalizeStep_proper (res : List Path) (seg : Path) (hseg : Proper seg) :
    normalizeStep false res seg = res ++ [seg] :=
  normalizeStep_proper_any false res seg hseg

theorem normalizeStep_nil (res : List Path) : normalizeStep false res [] = res := by
  simp [normalizeStep]

theorem normalizeStep_keeps_proper (res : List Path) (seg : Path) (hseg : '/' ∉ seg)
    (h : ∀ x ∈ res, Proper x) : ∀ x ∈ normalizeStep false res seg, Proper x := by
  by_cases h1 : seg = [] ∨ seg = ['.']
  · simpa [normalizeStep, h1] using h
  · by_cases h2 : seg = ['.', '.']
    · subst h2
      have := normalizeStep_dotDot res h
      simp only [dotDot] at this
      rw [this]
      intro x hx
      exact h x (List.mem_of_mem_dropLast hx)
    · have hp : Proper seg := by
        simp only [not_or] at h1
        exact ⟨h1.1, hseg, h1.2, h2⟩
      rw [normalizeStep_proper res seg hp]
      intro x hx
      simp only [List.mem_append, List.mem_singleton] at hx
      rcases hx with hx | hx
      · exact h x hx
      · exact hx ▸ hp

theorem foldl_normalizeStep_keeps_proper (segs : List Path) (res : List Path)
    (hsegs : ∀ x ∈ segs, '/' ∉ x) (h : ∀ x ∈ res, Proper x) :
    ∀ x ∈ segs.foldl (normalizeStep false) res, Proper x := by
  induction segs generalizing res with
  | nil => simpa using h
  | cons a t ih =>
    simp only [List.foldl_cons]
    exact ih _ (fun x hx => hsegs x (by simp [hx]))
      (normalizeStep_keeps_proper res a (hsegs a (by simp)) h)

theorem foldl_normalizeStep_proper (segs : List Path) (res : List Path)
    (hsegs : ∀ x ∈ segs, Proper x) :
    segs.foldl (normalizeStep false) res = res ++ segs := by
  induction segs generalizing res with
  | nil => simp
  | cons a t ih =>
    simp only [List.foldl_cons]
    rw [normalizeStep_proper res a (hsegs a (by simp)), ih _ (fun x hx => hsegs x (by simp [hx]))]
    simp

theorem segments_proper (p : Path) : ∀ x ∈ segments p, Proper x := by
  unfold segments normalizeSegs
  exact foldl_normalizeStep_keeps_proper _ _ (fun x hx => not_mem_of_mem_splitSlash p x hx)
    (by simp)

theorem segments_ofSegs (s : List Path) (h : ∀ x ∈ s, Proper x) : segments (ofSegs s) = s := by
  unfold segments normalizeSegs ofSegs
  have e : splitSlash ('/' :: joinSlash s) = [] :: splitSlash (joinSlash s) := by
    simp [splitSlash]
  rw [e, List.foldl_cons, normalizeStep_nil]
  by_cases hs : s = []
  · subst hs
    simp [joinSlash, splitSlash, normalizeStep]
  · rw [splitSlash_joinSlash s hs (fun x hx => (h x hx).2.1), foldl_normalizeStep_proper s [] h]
    simp

theorem isAbsolute_ofSegs (s : List Path) : isAbsolute (ofSegs s) = true := by
  simp [isAbsolute, ofSegs]

/-! ### `resolve` from an absolute path -/

theorem resolve_absolute_pair (cwd p x : Path) (hp : isAbsolute p = true) (hx : x ≠ [])
    (hxa : isAbsolute x = false) :
    resolve cwd [p, x] =
      ofSegs ((splitSlash x).foldl (normalizeStep false) (segments p)) := by
  have hp0 : p ≠ [] := by
    intro e
    subst e
    simp [isAbsolute] at hp
  have e : resolveLoop cwd [x, p] [] = (p ++ '/' :: (x ++ ['/']), true) := by
    simp [resolveLoop, hx, hxa, hp, hp0]
  unfold resolve
  simp only [List.reverse_cons, List.reverse_nil, List.nil_append, List.singleton_append, e,
    if_true, Bool.not_true, normalizeString, normalizeSegs, ofSegs, segments]
  rw [splitSlash_append_slash, show x ++ ['/'] = x ++ '/' :: [] from rfl, splitSlash_append_slash,
    List.foldl_append, List.foldl_append]
  simp [splitSlash, normalizeStep_nil]

theorem proper_dotGit : Proper dotGit := by decide

theorem resolve_dotGit (cwd p : Path) (hp : isAbsolute p = true) :
    resolve cwd [p, dotGit] = gitEntry (segments p) := by
  rw [resolve_absolute_pair cwd p dotGit hp (by decide) (by decide)]
  have e : splitSlash dotGit = [dotGit] := by decide
  rw [e, List.foldl_cons, List.foldl_nil, normalizeStep_proper _ _ proper_dotGit]
  rfl

theorem resolve_dotDot (cwd p : Path) (hp : isAbsolute p = true) :
    resolve cwd [p, dotDot] = ofSegs (segments p).dropLast := by
  rw [resolve_absolute_pair cwd p dotDot hp (by decide) (by decide)]
  have e : splitSlash dotDot = [dotDot] := by decide
  rw [e, List.foldl_cons, List.foldl_nil, normalizeStep_dotDot _ (segments_proper p)]

/-! ### `parse` on normalized absolute paths -/

theorem parse_ofSegs (s : List Path) :
    parse (ofSegs s) =
      match (((joinSlash s).reverse).dropWhile (fun c => c == '/')).dropWhile
          (fun c => c != '/') with
      | [] => ⟨['/'], ['/']⟩
      | _ :: before => ⟨['/'], (ofSegs s).take (1 + before.length)⟩ := by
  simp [parse, ofSegs, isAbsolute]

theorem dropWhile_eq_self_of_head (q : Char → Bool) (l : Path)
    (h : ∀ c ∈ l.head?, q c = false) : l.dropWhile q = l := by
  cases l with
  | nil => rfl
  | cons a t =>
    have := h a (by simp)
    simp [List.dropWhile, this]

theorem dropWhile_append_stop (q : Char → Bool) (a : Path) (b : Char) (t : Path)
    (ha : ∀ c ∈ a, q c = true) (hb : q b = false) :
    (a ++ b :: t).dropWhile q = b :: t := by
  induction a with
  | nil => simp [List.dropWhile, hb]
  | cons c cs ih =>
    have hc := ha c (by simp)
    simp only [List.cons_append, List.dropWhile, hc]
    exact ih (fun x hx => ha x (by simp [hx]))

theorem parse_root_eq_dir (s : List Path) (h : ∀ x ∈ s, Proper x) (hlen : s.length ≤ 1) :
    (parse (ofSegs s)).root = (parse (ofSegs s)).dir := by
  rw [parse_ofSegs]
  match s, h, hlen with
  | [], _, _ => simp [joinSlash]
  | [a], h, _ =>
    have ha : '/' ∉ a := (h a (by simp)).2.1
    have e1 : (a.reverse).dropWhile (fun c => c == '/') = a.reverse := by
      apply dropWhile_eq_self_of_head
      intro c hc
      have hm : c ∈ a := by
        have := List.mem_of_mem_head? hc
        simpa using this
      simp only [beq_eq_false_iff_ne, ne_eq]
      intro e
      exact ha (e ▸ hm)
    have e2 : (a.reverse).dropWhile (fun c => c != '/') = [] := by
      rw [List.dropWhile_eq_nil_iff]
      intro c hc
      have hm : c ∈ a := by simpa using hc
      simp only [bne_iff_ne, ne_eq]
      intro e
      exact ha (e ▸ hm)
    simp only [joinSlash, e1, e2]

theorem joinSlash_ne_nil (s : List Path) (hs : s ≠ []) (h : ∀ x ∈ s, Proper x) :
    joinSlash s ≠ [] := by
  match s, hs, h with
  | [a], _, h => simpa [joinSlash] using (h a (by simp)).1
  | a :: b :: t, _, h => simp [joinSlash]

theorem parse_root_ne_dir (s : List Path) (h : ∀ x ∈ s, Proper x) (hlen : 2 ≤ s.length) :
    (parse (ofSegs s)).root ≠ (parse (ofSegs s)).dir := by
  rw [parse_ofSegs]
  have hs : s ≠ [] := by
    intro e
    subst e
    simp at hlen
  obtain ⟨init, last, rfl⟩ : ∃ init last, s = init ++ [last] :=
    ⟨s.dropLast, s.getLast hs, (List.dropLast_append_getLast hs).symm⟩
  have hinit : init ≠ [] := by
    intro e
    subst e
    simp at hlen
  have hlast : Proper last := h last (by simp)
  have hinitP : ∀ x ∈ init, Proper x := fun x hx => h x (by simp [hx])
  have hj := joinSlash_ne_nil init hinit hinitP
  have e0 : (joinSlash (init ++ [last])).reverse =
      last.reverse ++ '/' :: (joinSlash init).reverse := by
    rw [joinSlash_append_singleton init last hinit]
    simp
  have e1 : (last.reverse ++ '/' :: (joinSlash init).reverse).dropWhile (fun c => c == '/') =
      last.reverse ++ '/' :: (joinSlash init).reverse := by
    apply dropWhile_eq_self_of_head
    intro c hc
    have hne : last.reverse ≠ [] := by simpa using hlast.1
    rw [List.head?_append_of_ne_nil _ hne] at hc
    have hm : c ∈ last := by
      have := List.mem_of_mem_head? hc
      simpa using this
    simp only [beq_eq_false_iff_ne, ne_eq]
    intro e
    exact hlast.2.1 (e ▸ hm)
  have e2 : (last.reverse ++ '/' :: (joinSlash init).reverse).dropWhile (fun c => c != '/') =
      '/' :: (joinSlash init).reverse := by
    apply dropWhile_append_stop
    · intro c hc
      have hm : c ∈ last := by simpa using hc
      simp only [bne_iff_ne, ne_eq]
      intro e
      exact hlast.2.1 (e ▸ hm)
    · simp
  rw [e0, e1, e2]
  simp only [List.length_reverse, ne_eq]
  intro e
  have hl := congrArg List.length e
  have h1 : 0 < (joinSlash init).length := List.length_pos.mpr hj
  simp only [List.length_singleton, List.length_take, ofSegs, List.length_cons,
    joinSlash_append_singleton init last hinit, List.length_append, List.length_nil] at hl
  omega

/-! ### One round of `resolveGitFolder` -/

theorem resolveGitFolderFuel_succ (w : World) (fuel : Nat) (p : Path)
    (hp : isAbsolute p = true) :
    resolveGitFolderFuel w (fuel + 1) p =
      if (parse p).root = (parse p).dir then
        (.error (.assertion "git folder not found"), [])
      else
        match w.access (gitEntry (segments p)) with
        | none => (.ok p, [Event.access (gitEntry (segments p))])
        | some _ =>
          ((resolveGitFolderFuel w fuel (ofSegs (segments p).dropLast)).1,
            Event.access (gitEntry (segments p)) ::
              (resolveGitFolderFuel w fuel (ofSegs (segments p).dropLast)).2) := by
  simp only [resolveGitFolderFuel, hp, resolve_dotGit, resolve_dotDot]
  simp

theorem resolveGitFolderFuel_shallow (w : World) (fuel : Nat) (s : List Path)
    (h : ∀ x ∈ s, Proper x) (hlen : s.length ≤ 1) :
    resolveGitFolderFuel w (fuel + 1) (ofSegs s) =
      (.error (.assertion "git folder not found"), []) := by
  rw [resolveGitFolderFuel_succ w fuel _ (isAbsolute_ofSegs s), if_pos (parse_root_eq_dir s h hlen)]

theorem resolveGitFolderFuel_deep (w : World) (fuel : Nat) (s : List Path)
    (h : ∀ x ∈ s, Proper x) (hlen : 2 ≤ s.length) :
    resolveGitFolderFuel w (fuel + 1) (ofSegs s) =
      match w.access (gitEntry s) with
      | none => (.ok (ofSegs s), [Event.access (gitEntry s)])
      | some _ =>
        ((resolveGitFolderFuel w fuel (ofSegs s.dropLast)).1,
          Event.access (gitEntry s) :: (resolveGitFolderFuel w fuel (ofSegs s.dropLast)).2) := by
  rw [resolveGitFolderFuel_succ w fuel _ (isAbsolute_ofSegs s), if_neg (parse_root_ne_dir s h hlen),
    segments_ofSegs s h]

theorem proper_dropLast (s : List Path) (h : ∀ x ∈ s, Proper x) : ∀ x ∈ s.dropLast, Proper x :=
  fun x hx => h x (List.mem_of_mem_dropLast hx)

theorem take_dropLast_of_lt (s : List Path) (j : Nat) (hj : j < s.length) :
    s.dropLast.take j = s.take j := by
  rw [List.dropLast_eq_take, List.take_take]
  congr 1
  omega

/-- A successful climb from a normalized path stops at a directory at depth
two or more whose `.git` is accessible, having met no accessible `.git`
further down. -/
theorem climb_ok (w : World) (fuel : Nat) (s : List Path) (h : ∀ x ∈ s, Proper x) (R : Path)
    (hR : (resolveGitFolderFuel w fuel (ofSegs s)).1 = .ok R) :
    ∃ k, 2 ≤ k ∧ k ≤ s.length ∧ R = ofSegs (s.take k) ∧ w.access (gitEntry (s.take k)) = none ∧
      ∀ j, k < j → j ≤ s.length → w.access (gitEntry (s.take j)) ≠ none := by
  induction fuel generalizing s with
  | zero => simp [resolveGitFolderFuel] at hR
  | succ fuel ih =>
    by_cases hlen : s.length ≤ 1
    · rw [resolveGitFolderFuel_shallow w fuel s h hlen] at hR
      simp at hR
    · have hlen2 : 2 ≤ s.length := by omega
      rw [resolveGitFolderFuel_deep w fuel s h hlen2] at hR
      cases hacc : w.access (gitEntry s) with
      | none =>
        rw [hacc] at hR
        simp only [Except.ok.injEq] at hR
        refine ⟨s.length, hlen2, le_refl _, ?_, ?_, ?_⟩
        · rw [List.take_length]
          exact hR.symm
        · rw [List.take_length]
          exact hacc
        · intro j h1 h2
          omega
      | some e =>
        rw [hacc] at hR
        simp only at hR
        obtain ⟨k, hk2, hk, hRk, hacck, hchain⟩ := ih s.dropLast (proper_dropLast s h) hR
        have hdl : s.dropLast.length = s.length - 1 := by simp
        have hklt : k < s.length := by omega
        refine ⟨k, hk2, by omega, ?_, ?_, ?_⟩
        · rw [hRk, take_dropLast_of_lt s k hklt]
        · rw [← take_dropLast_of_lt s k hklt]
          exact hacck
        · intro j h1 h2
          by_cases hj : j = s.length
          · subst hj
            rw [List.take_length, hacc]
            simp
          · have hjlt : j < s.length := by omega
            rw [← take_dropLast_of_lt s j hjlt]
            exact hchain j h1 (by omega)

/-- A climb from a normalized path that meets no accessible `.git` at depth two
or more ends with the not-found assertion, given fuel for every level. -/
theorem climb_not_found (w : World) (fuel : Nat) (s : List Path) (h : ∀ x ∈ s, Proper x)
    (hf1 : 1 ≤ fuel) (hf : s.length ≤ fuel)
    (hno : ∀ j, 2 ≤ j → j ≤ s.length → w.access (gitEntry (s.take j)) ≠ none) :
    (resolveGitFolderFuel w fuel (ofSegs s)).1 =
      .error (.assertion "git folder not found") := by
  induction fuel generalizing s with
  | zero => omega
  | succ fuel ih =>
    by_cases hlen : s.length ≤ 1
    · rw [resolveGitFolderFuel_shallow w fuel s h hlen]
    · have hlen2 : 2 ≤ s.length := by omega
      rw [resolveGitFolderFuel_deep w fuel s h hlen2]
      cases hacc : w.access (gitEntry s) with
      | none =>
        have := hno s.length hlen2 (le_refl _)
        rw [List.take_length] at this
        exact absurd hacc this
      | some e =>
        simp only
        have hdl : s.dropLast.length = s.length - 1 := by simp
        apply ih s.dropLast (proper_dropLast s h) (by omega) (by omega)
        intro j h1 h2
        have hjlt : j < s.length := by omega
        rw [take_dropLast_of_lt s j hjlt]
        exact hno j h1 (by omega)

/-- With fuel for every level, a climb from a normalized path never exhausts it. -/
theorem climb_total (w : World) (fuel : Nat) (s : List Path) (h : ∀ x ∈ s, Proper x)
    (hf1 : 1 ≤ fuel) (hf : s.length ≤ fuel) :
    (resolveGitFolderFuel w fuel (ofSegs s)).1 ≠ .error .diverged := by
  induction fuel generalizing s with
  | zero => omega
  | succ fuel ih =>
    by_cases hlen : s.length ≤ 1
    · rw [resolveGitFolderFuel_shallow w fuel s h hlen]
      simp
    · have hlen2 : 2 ≤ s.length := by omega
      rw [resolveGitFolderFuel_deep w fuel s h hlen2]
      cases hacc : w.access (gitEntry s) with
      | none => simp
      | some e =>
        simp only
        have hdl : s.dropLast.length = s.length - 1 := by simp
        exact ih s.dropLast (proper_dropLast s h) (by omega) (by omega)

/-- A climb from a normalized path returns the deepest directory, at depth two
or more, whose `.git` is accessible. -/
theorem climb_found (w : World) (fuel : Nat) (s : List Path) (h : ∀ x ∈ s, Proper x)
    (hf : s.length ≤ fuel) (k : Nat) (hk2 : 2 ≤ k) (hk : k ≤ s.length)
    (hacc : w.access (gitEntry (s.take k)) = none)
    (hno : ∀ j, k < j → j ≤ s.length → w.access (gitEntry (s.take j)) ≠ none) :
    (resolveGitFolderFuel w fuel (ofSegs s)).1 = .ok (ofSegs (s.take k)) := by
  induction fuel generalizing s with
  | zero => omega
  | succ fuel ih =>
    have hlen2 : 2 ≤ s.length := by omega
    rw [resolveGitFolderFuel_deep w fuel s h hlen2]
    by_cases hks : k = s.length
    · subst hks
      rw [List.take_length] at hacc ⊢
      rw [hacc]
    · have hklt : k < s.length := by omega
      have hdl : s.dropLast.length = s.length - 1 := by simp
      cases hs : w.access (gitEntry s) with
      | none =>
        have := hno s.length hklt (le_refl _)
        rw [List.take_length] at this
        exact absurd hs this
      | some e =>
        simp only
        rw [← take_dropLast_of_lt s k hklt]
        apply ih s.dropLast (proper_dropLast s h) (by omega) (by omega)
        · rw [take_dropLast_of_lt s k hklt]
          exact hacc
        · intro j h1 h2
          have hjlt : j < s.length := by omega
          rw [take_dropLast_of_lt s j hjlt]
          exact hno j h1 (by omega)

/-! ### Fuel -/

theorem length_splitSlash_le (p : Path) : (splitSlash p).length ≤ p.length + 1 := by
  induction p with
  | nil => simp [splitSlash]
  | cons c cs ih =>
    unfold splitSlash
    split
    · simp only [List.length_cons]
      omega
    · cases hs : splitSlash cs with
      | nil => simp [consHead]
      | cons x xs =>
        rw [hs] at ih
        simp only [consHead, List.length_cons] at ih ⊢
        omega

theorem length_normalizeStep_le (b : Bool) (res : List Path) (seg : Path) :
    (normalizeStep b res seg).length ≤ res.length + 1 := by
  unfold normalizeStep
  split
  · omega
  · split
    · split
      · simp only [List.length_dropLast]
        omega
      · split
        · simp
        · omega
    · simp

theorem length_foldl_normalizeStep_le (b : Bool) (segs res : List Path) :
    (segs.foldl (normalizeStep b) res).length ≤ res.length + segs.length := by
  induction segs generalizing res with
  | nil => simp
  | cons a t ih =>
    simp only [List.foldl_cons, List.length_cons]
    have h1 := ih (normalizeStep b res a)
    have h2 := length_normalizeStep_le b res a
    omega

theorem length_segments_le (p : Path) : (segments p).length ≤ p.length + 1 := by
  unfold segments normalizeSegs
  have h1 := length_foldl_normalizeStep_le false (splitSlash p) []
  have h2 := length_splitSlash_le p
  simp only [List.length_nil] at h1
  omega

theorem climb_trace_length (w : World) (fuel : Nat) (s : List Path) (h : ∀ x ∈ s, Proper x) :
    (resolveGitFolderFuel w fuel (ofSegs s)).2.length ≤ s.length := by
  induction fuel generalizing s with
  | zero => simp [resolveGitFolderFuel]
  | succ fuel ih =>
    by_cases hlen : s.length ≤ 1
    · rw [resolveGitFolderFuel_shallow w fuel s h hlen]
      simp
    · have hlen2 : 2 ≤ s.length := by omega
      rw [resolveGitFolderFuel_deep w fuel s h hlen2]
      cases hacc : w.access (gitEntry s) with
      | none =>
        simp only [List.length_singleton]
        omega
      | some e =>
        simp only [List.length_cons]
        have := ih s.dropLast (proper_dropLast s h)
        have hdl : s.dropLast.length = s.length - 1 := by simp
        omega

/-! ### The first round, from an arbitrary absolute path -/

theorem resolveGitFolder_round (w : World) (p : Path) (hp : isAbsolute p = true) :
    resolveGitFolder w p =
      if (parse p).root = (parse p).dir then
        (.error (.assertion "git folder not found"), [])
      else
        match w.access (gitEntry (segments p)) with
        | none => (.ok p, [Event.access (gitEntry (segments p))])
        | some _ =>
          ((resolveGitFolderFuel w (p.length + 1) (ofSegs (segments p).dropLast)).1,
            Event.access (gitEntry (segments p)) ::
              (resolveGitFolderFuel w (p.length + 1) (ofSegs (segments p).dropLast)).2) := by
  unfold resolveGitFolder
  exact resolveGitFolderFuel_succ w (p.length + 1) p hp

theorem resolveGitFolder_relative (w : World) (p : Path) (hp : isAbsolute p = false) :
    resolveGitFolder w p = (.error (.assertion "git path must be absolute"), []) := by
  simp [resolveGitFolder, resolveGitFolderFuel, hp]

theorem dropLast_fuel (p : Path) :
    1 ≤ p.length + 1 ∧ (segments p).dropLast.length ≤ p.length + 1 := by
  have := length_segments_le p
  simp only [List.length_dropLast]
  omega

/-- The shape of every successful result of `resolveGitFolder`. -/
theorem resolveGitFolder_ok (w : World) (p R : Path) (h : (resolveGitFolder w p).1 = .ok R) :
    (R = p ∨ ∃ k, k < (segments p).length ∧ R = ancestorAt p k) ∧
      w.access (gitEntry (segments R)) = none ∧
      ∀ j, (segments R).length < j → j ≤ (segments p).length →
        w.access (gitEntry ((segments p).take j)) ≠ none := by
  cases hp : isAbsolute p with
  | false =>
    rw [resolveGitFolder_relative w p hp] at h
    simp at h
  | true =>
    rw [resolveGitFolder_round w p hp] at h
    split at h
    · simp at h
    · cases hacc : w.access (gitEntry (segments p)) with
      | none =>
        rw [hacc] at h
        simp only [Except.ok.injEq] at h
        subst h
        refine ⟨Or.inl rfl, hacc, ?_⟩
        intro j h1 h2
        omega
      | some e =>
        rw [hacc] at h
        simp only at h
        have hN := segments_proper p
        obtain ⟨k, _, hk, hRk, hacck, hchain⟩ :=
          climb_ok w _ _ (proper_dropLast _ hN) R h
        have hdl : (segments p).dropLast.length = (segments p).length - 1 := by simp
        have hklt : k < (segments p).length := by omega
        rw [take_dropLast_of_lt _ k hklt] at hRk hacck
        have hsegR : segments R = (segments p).take k := by
          rw [hRk]
          exact segments_ofSegs _ (fun x hx => hN x (List.mem_of_mem_take hx))
        refine ⟨Or.inr ⟨k, hklt, hRk⟩, by rw [hsegR]; exact hacck, ?_⟩
        intro j h1 h2
        have hkj : k < j := by
          rw [hsegR, List.length_take] at h1
          omega
        by_cases hj : j = (segments p).length
        · subst hj
          rw [List.take_length, hacc]
          simp
        · have hjlt : j < (segments p).length := by omega
          rw [← take_dropLast_of_lt _ j hjlt]
          exact hchain j hkj (by omega)

/-- Fuel is never the reason a call ends. -/
theorem resolveGitFolder_terminates (w : World) (p : Path) :
    (resolveGitFolder w p).1 ≠ .error .diverged := by
  cases hp : isAbsolute p with
  | false =>
    rw [resolveGitFolder_relative w p hp]
    simp
  | true =>
    rw [resolveGitFolder_round w p hp]
    split
    · simp
    · cases hacc : w.access (gitEntry (segments p)) with
      | none => simp
      | some e =>
        simp only
        exact climb_total w _ _ (proper_dropLast _ (segments_proper p)) (dropLast_fuel p).1
          (dropLast_fuel p).2

/-! ## The upward search -/

/-- C1 (evaluation at the scenario of the claim): with `.git` only at `/repo`,
`resolveGitFolder("/repo/src/sub/deep/file.txt")` checks the four directories
below `/repo`, then arrives at `/repo`, whose parsed `dir` equals its parsed
`root`, and rejects with "git folder not found" without looking inside `/repo`. -/
theorem resolveGitFolder_repo_below_root :
    resolveGitFolder repoBelowRoot "/repo/src/sub/deep/file.txt".toList =
      (.error (.assertion "git folder not found"),
        [Event.access "/repo/src/sub/deep/file.txt/.git".toList,
          Event.access "/repo/src/sub/deep/.git".toList,
          Event.access "/repo/src/sub/.git".toList,
          Event.access "/repo/src/.git".toList]) := by
  decide

/-- The search from a normalized path does find a root that lies at depth two
or more: it returns the deepest directory on the chain whose `.git` entry is
accessible, provided that directory is not the root or a child of the root. -/
theorem resolveGitFolder_finds_deep_root (w : World) (s : List Path) (hs : ∀ x ∈ s, Proper x)
    (k : Nat) (hk2 : 2 ≤ k) (hk : k ≤ s.length)
    (hacc : w.access (gitEntry (s.take k)) = none)
    (hno : ∀ j, k < j → j ≤ s.length → w.access (gitEntry (s.take j)) ≠ none) :
    (resolveGitFolder w (ofSegs s)).1 = .ok (ofSegs (s.take k)) := by
  have hfuel : s.length ≤ (ofSegs s).length + 2 := by
    have h1 := length_segments_le (ofSegs s)
    rw [segments_ofSegs s hs] at h1
    omega
  exact climb_found w _ s hs hfuel k hk2 hk hacc hno

/-- C2: whenever `resolveGitFolder(p)` returns `R`, then `R` is `p` itself or a
proper ancestor directory of `p`, the `.git` entry of `R` is accessible, and
no directory on the way from `p` up to, and excluding, `R` has an accessible
`.git` entry. -/
theorem resolveGitFolder_returns_closest (w : World) (p R : Path)
    (h : (resolveGitFolder w p).1 = .ok R) :
    (R = p ∨ ∃ k, k < (segments p).length ∧ R = ancestorAt p k) ∧
      w.access (gitEntry (segments R)) = none ∧
      ∀ j, (segments R).length < j → j ≤ (segments p).length →
        w.access (gitEntry ((segments p).take j)) ≠ none :=
  resolveGitFolder_ok w p R h

/-- Witness of C2: the search from `/home/repo/src/a.txt` in `homeRepo`. -/
theorem resolveGitFolder_returns_closest_witness :
    (resolveGitFolder homeRepo "/home/repo/src/a.txt".toList).1 = .ok "/home/repo".toList ∧
      (("/home/repo".toList = "/home/repo/src/a.txt".toList ∨
          ∃ k, k < (segments "/home/repo/src/a.txt".toList).length ∧
            "/home/repo".toList = ancestorAt "/home/repo/src/a.txt".toList k) ∧
        homeRepo.access (gitEntry (segments "/home/repo".toList)) = none ∧
        ∀ j, (segments "/home/repo".toList).length < j →
          j ≤ (segments "/home/repo/src/a.txt".toList).length →
          homeRepo.access (gitEntry ((segments "/home/repo/src/a.txt".toList).take j)) ≠ none) :=
  ⟨by decide, resolveGitFolder_returns_closest _ _ _ (by decide)⟩

/-- C3: when neither `p` nor any directory above it, the root included, has an
accessible `.git` entry, `resolveGitFolder(p)` ends with the assertion error
"git folder not found": it returns no path, its recursion does not run on, and
it makes at most one access check per level of `p` plus one. -/
theorem resolveGitFolder_not_found (w : World) (p : Path) (hp : isAbsolute p = true)
    (hno : ∀ j, j ≤ (segments p).length → w.access (gitEntry ((segments p).take j)) ≠ none) :
    (resolveGitFolder w p).1 = .error (.assertion "git folder not found") ∧
      (resolveGitFolder w p).2.length ≤ (segments p).length + 1 := by
  have hN := segments_proper p
  have hdl : (segments p).dropLast.length = (segments p).length - 1 := by simp
  rw [resolveGitFolder_round w p hp]
  split
  · simp
  · cases hacc : w.access (gitEntry (segments p)) with
    | none =>
      have := hno (segments p).length (le_refl _)
      rw [List.take_length] at this
      exact absurd hacc this
    | some e =>
      simp only [List.length_cons]
      constructor
      · apply climb_not_found w _ _ (proper_dropLast _ hN) (dropLast_fuel p).1 (dropLast_fuel p).2
        intro j _ h2
        have hjlt : j < (segments p).length := by omega
        rw [take_dropLast_of_lt _ j hjlt]
        exact hno j (by omega)
      · have := climb_trace_length w (p.length + 1) _ (proper_dropLast _ hN)
        omega

/-- Witness of C3: the search from `/home/user/notes/a.txt` in `noRepo`. -/
theorem resolveGitFolder_not_found_witness :
    isAbsolute "/home/user/notes/a.txt".toList = true ∧
      (resolveGitFolder noRepo "/home/user/notes/a.txt".toList).1 =
        .error (.assertion "git folder not found") ∧
      (resolveGitFolder noRepo "/home/user/notes/a.txt".toList).2.length ≤
        (segments "/home/user/notes/a.txt".toList).length + 1 :=
  ⟨by decide, resolveGitFolder_not_found noRepo _ (by decide) (fun j hj => by
    have h4 : (segments "/home/user/notes/a.txt".toList).length = 4 := by decide
    rw [h4] at hj
    interval_cases j <;> decide)⟩

/-- C4: for a path that is not absolute, `resolveGitFolder` and `gitHistory`
(whatever the options) reject with the assertion error, and the list of calls
made to the file system and to the engine is empty. -/
theorem relative_path_rejected_before_io (w : World) (p : Path) (options : Options)
    (hp : isAbsolute p = false) :
    resolveGitFolder w p = (.error (.assertion "git path must be absolute"), []) ∧
      gitHistory w p options = (.error (.assertion "file path must be absolute"), []) := by
  refine ⟨resolveGitFolder_relative w p hp, ?_⟩
  simp [gitHistory, hp]

/-- Witness of C4: the relative path `a.txt` in `cwdRepo`, with a root
supplied. -/
theorem relative_path_rejected_before_io_witness :
    isAbsolute "a.txt".toList = false ∧
      resolveGitFolder cwdRepo "a.txt".toList =
        (.error (.assertion "git path must be absolute"), []) ∧
      gitHistory cwdRepo "a.txt".toList ⟨some "/cwd/repo".toList⟩ =
        (.error (.assertion "file path must be absolute"), []) :=
  ⟨by decide, relative_path_rejected_before_io _ _ _ (by decide)⟩

/-- C10: for a normalized absolute path, the parsed `dir` equals the parsed
`root` exactly when the path is the root or a direct child of it; for such a
path `resolveGitFolder` rejects with "git folder not found" and makes no call
to the file system, whatever the file system holds; and a climb from any
normalized path that finds no accessible `.git` at depth two or more rejects
the same way, whatever lies at depth one and at the root. -/
theorem resolveGitFolder_stops_at_depth_one (w : World) (s : List Path)
    (hs : ∀ x ∈ s, Proper x) :
    ((parse (ofSegs s)).root = (parse (ofSegs s)).dir ↔ s.length ≤ 1) ∧
      (s.length ≤ 1 →
        resolveGitFolder w (ofSegs s) = (.error (.assertion "git folder not found"), [])) ∧
      ((∀ j, 2 ≤ j → j ≤ s.length → w.access (gitEntry (s.take j)) ≠ none) →
        (resolveGitFolder w (ofSegs s)).1 = .error (.assertion "git folder not found")) := by
  have hfuel : s.length ≤ (ofSegs s).length + 2 := by
    have h1 := length_segments_le (ofSegs s)
    rw [segments_ofSegs s hs] at h1
    omega
  refine ⟨⟨?_, parse_root_eq_dir s hs⟩, ?_, ?_⟩
  · intro h
    by_contra hlen
    exact parse_root_ne_dir s hs (by omega) h
  · intro hlen
    exact resolveGitFolderFuel_shallow w _ s hs hlen
  · intro hno
    exact climb_not_found w _ s hs (by omega) hfuel hno

/-- Witness of C10: in `repoBelowRoot`, where `/repo/.git` is accessible, both
`/repo` itself and `/repo/src/sub` are rejected. -/
theorem resolveGitFolder_stops_at_depth_one_witness :
    resolveGitFolder repoBelowRoot (ofSegs ["repo".toList]) =
        (.error (.assertion "git folder not found"), []) ∧
      (resolveGitFolder repoBelowRoot (ofSegs ["repo".toList, "src".toList, "sub".toList])).1 =
        .error (.assertion "git folder not found") :=
  ⟨(resolveGitFolder_stops_at_depth_one _ ["repo".toList] (by decide)).2.1 (by decide),
    (resolveGitFolder_stops_at_depth_one _ ["repo".toList, "src".toList, "sub".toList]
      (by decide)).2.2 (by
        intro j h1 h2
        simp only [List.length_cons, List.length_nil] at h2
        interval_cases j <;> decide)⟩

/-! ## The history read and the entry point -/

/-- C5 (counterexample): with `gitPath` supplied as the empty string, which is
falsy, `gitHistory` runs the resolver: the `.git` check below the file path is
made, the root `/home/repo` is found and the history is read, whereas
`readHistory(filePath, "")` rejects on the access check of the empty path. -/
theorem gitHistory_empty_gitPath_runs_resolver :
    Event.access "/home/repo/src/a.txt/.git".toList ∈
        (gitHistory homeRepo "/home/repo/src/a.txt".toList ⟨some []⟩).2 ∧
      (gitHistory homeRepo "/home/repo/src/a.txt".toList ⟨some []⟩).1 =
        .ok [⟨"c3", 30⟩, ⟨"c1", 10⟩] ∧
      readHistory homeRepo "/home/repo/src/a.txt".toList [] =
        (.error (.fs "ENOENT"), [Event.access "/home/repo/src/a.txt".toList, Event.access []]) := by
  decide

/-- C5 (amended): for an absolute `filePath`, when `gitPath` is supplied as a
non-empty string, `gitHistory` is `readHistory(filePath, gitPath)`, calls
included, so no `.git` check of the resolver is made; when `gitPath` is absent
or the empty string, the resolver runs first and its result is the root. -/
theorem gitHistory_supplied_gitPath (w : World) (filePath gitPath : Path) (options : Options)
    (hf : isAbsolute filePath = true) :
    (options.gitPath = some gitPath → gitPath ≠ [] →
        gitHistory w filePath options = readHistory w filePath gitPath) ∧
      ((options.gitPath = none ∨ options.gitPath = some []) →
        gitHistory w filePath options =
          match resolveGitFolder w filePath with
          | (.error e, events) => (.error e, events)
          | (.ok root, events) =>
            ((readHistory w filePath root).1, events ++ (readHistory w filePath root).2)) := by
  constructor
  · intro ho hg
    cases gitPath with
    | nil => exact absurd rfl hg
    | cons c cs => simp [gitHistory, hf, ho, truthy]
  · intro ho
    rcases ho with ho | ho <;> simp [gitHistory, hf, ho, truthy]

/-- Witness of C5: in `nestedRepo` the root `/home/repo` is supplied although
`/home/repo/src` holds a `.git` entry closer to the file. -/
theorem gitHistory_supplied_gitPath_witness :
    isAbsolute "/home/repo/src/a.txt".toList = true ∧
      (resolveGitFolder nestedRepo "/home/repo/src/a.txt".toList).1 =
        .ok "/home/repo/src".toList ∧
      gitHistory nestedRepo "/home/repo/src/a.txt".toList ⟨some "/home/repo".toList⟩ =
        readHistory nestedRepo "/home/repo/src/a.txt".toList "/home/repo".toList :=
  ⟨by decide, by decide,
    (gitHistory_supplied_gitPath _ _ "/home/repo".toList ⟨some "/home/repo".toList⟩
      (by decide)).1 rfl (by decide)⟩

/-- C6 (counterexample): `readHistory("a.txt", "repo")`, both paths relative,
is not rejected: both are passed to `fs.access`, the repository is opened and
the walk returns its list. -/
theorem readHistory_accepts_relative_paths :
    isAbsolute "a.txt".toList = false ∧ isAbsolute "repo".toList = false ∧
      readHistory cwdRepo "a.txt".toList "repo".toList =
        (.ok [⟨"c1", 5⟩],
          [Event.access "a.txt".toList, Event.access "repo".toList,
            Event.repositoryOpen "repo".toList, Event.createRevWalk, Event.pushHead,
            Event.sorting SortMode.time, Event.fileHistoryWalk "../a.txt".toList 100000]) := by
  decide

/-- C6 (amended): `resolveGitFolder` and `gitHistory` check that their first
argument is absolute and reject before any outside call when it is not;
`readHistory` checks neither of its paths, its first act is `fs.access` on
the file path as given and it never rejects with an assertion error; and
`gitHistory` hands a supplied non-empty `gitPath` to `readHistory` unchecked. -/
theorem absolute_check_on_first_argument_only (w : World) (path gitPath : Path)
    (options : Options) :
    (isAbsolute path = false →
        resolveGitFolder w path = (.error (.assertion "git path must be absolute"), []) ∧
          gitHistory w path options = (.error (.assertion "file path must be absolute"), [])) ∧
      (readHistory w path gitPath).2.head? = some (Event.access path) ∧
      (∀ message, (readHistory w path gitPath).1 ≠ .error (.assertion message)) ∧
      (isAbsolute path = true → gitPath ≠ [] →
        gitHistory w path ⟨some gitPath⟩ = readHistory w path gitPath) := by
  refine ⟨?_, ?_, ?_, ?_⟩
  · intro hp
    exact ⟨resolveGitFolder_relative w path hp, by simp [gitHistory, hp]⟩
  · unfold readHistory
    dsimp only
    repeat' split
    all_goals rfl
  · intro message
    unfold readHistory
    dsimp only
    repeat' split
    all_goals simp
  · intro hp hg
    cases gitPath with
    | nil => exact absurd rfl hg
    | cons c cs => simp [gitHistory, hp, truthy]

/-- Witness of C6: in `cwdRepo` a relative first argument is rejected, a
relative `gitPath` option is passed on. -/
theorem absolute_check_on_first_argument_only_witness :
    (resolveGitFolder cwdRepo "a.txt".toList =
        (.error (.assertion "git path must be absolute"), []) ∧
      gitHistory cwdRepo "a.txt".toList {} =
        (.error (.assertion "file path must be absolute"), [])) ∧
      gitHistory cwdRepo "/cwd/a.txt".toList ⟨some "repo".toList⟩ =
        readHistory cwdRepo "/cwd/a.txt".toList "repo".toList :=
  ⟨(absolute_check_on_first_argument_only _ "a.txt".toList [] {}).1 (by decide),
    (absolute_check_on_first_argument_only _ "/cwd/a.txt".toList "repo".toList {}).2.2.2
      (by decide) (by decide)⟩

/-- C7: when `fs.access` rejects `filePath`, `readHistory` rejects with that
error after this single call, whatever `gitPath` is; when it accepts `filePath`
and rejects `gitPath`, `readHistory` rejects with the error for `gitPath` after
these two calls.  In both cases no repository is opened and no walk is run. -/
theorem readHistory_inaccessible (w : World) (filePath gitPath : Path) (e : FsError) :
    (w.access filePath = some e →
        readHistory w filePath gitPath = (.error (.fs e), [Event.access filePath])) ∧
      (w.access filePath = none → w.access gitPath = some e →
        readHistory w filePath gitPath =
          (.error (.fs e), [Event.access filePath, Event.access gitPath])) := by
  constructor
  · intro h
    simp [readHistory, h]
  · intro h1 h2
    simp [readHistory, h1, h2]

/-- Witness of C7: in `homeRepo`, a missing file, then the existing file with a
missing root. -/
theorem readHistory_inaccessible_witness :
    readHistory homeRepo "/home/repo/src/gone.txt".toList "/home/repo".toList =
        (.error (.fs "ENOENT"), [Event.access "/home/repo/src/gone.txt".toList]) ∧
      readHistory homeRepo "/home/repo/src/a.txt".toList "/home/other".toList =
        (.error (.fs "ENOENT"),
          [Event.access "/home/repo/src/a.txt".toList, Event.access "/home/other".toList]) :=
  ⟨(readHistory_inaccessible _ _ _ "ENOENT").1 (by decide),
    (readHistory_inaccessible _ _ _ "ENOENT").2 (by decide) (by decide)⟩

/-- C8 (counterexample): in `skewedRepo` the call
`readHistory("/home/repo/src/a.txt", "/home/repo")` succeeds and returns the
list of the engine's time-sorted walk as it is, commit time 10 before commit
time 20: the result is not time-descending, the module having neither sorted
nor checked it. -/
theorem readHistory_keeps_engine_order :
    readHistory skewedRepo "/home/repo/src/a.txt".toList "/home/repo".toList =
        (.ok [⟨"c2", 10⟩, ⟨"c1", 20⟩],
          [Event.access "/home/repo/src/a.txt".toList, Event.access "/home/repo".toList,
            Event.repositoryOpen "/home/repo".toList, Event.createRevWalk, Event.pushHead,
            Event.sorting SortMode.time, Event.fileHistoryWalk "src/a.txt".toList 100000]) ∧
      ¬ Descending [⟨"c2", 10⟩, ⟨"c1", 20⟩] := by
  decide

/-- C8 (amended): a successful `readHistory(f, R)` returns exactly the list that
the engine's `fileHistoryWalk` yields for the walker of the repository opened
at `R`, with HEAD pushed and time sorting set, on the path of `f` relative to
`R` with the bound 100000; the calls are made in the order of the source, none
of them after the walk; so the result is time-descending exactly when the
list the engine yields is. -/
theorem readHistory_returns_engine_walk (w : World) (filePath gitPath : Path)
    (history : List HistoryEntry)
    (h : (readHistory w filePath gitPath).1 = .ok history) :
    (∃ repo, w.repositoryOpen gitPath = .ok repo ∧
        w.fileHistoryWalk ⟨repo, true, SortMode.time⟩ (relative w.cwd gitPath filePath) 100000 =
          .ok history ∧
        (Descending history ↔
          ∃ l, w.fileHistoryWalk ⟨repo, true, SortMode.time⟩
              (relative w.cwd gitPath filePath) 100000 = .ok l ∧ Descending l)) ∧
      (readHistory w filePath gitPath).2 =
        [Event.access filePath, Event.access gitPath, Event.repositoryOpen gitPath,
          Event.createRevWalk, Event.pushHead, Event.sorting SortMode.time,
          Event.fileHistoryWalk (relative w.cwd gitPath filePath) 100000] := by
  unfold readHistory at h ⊢
  cases h1 : w.access filePath with
  | some e => simp [h1] at h
  | none =>
    cases h2 : w.access gitPath with
    | some e => simp [h1, h2] at h
    | none =>
      cases h3 : w.repositoryOpen gitPath with
      | error e => simp [h1, h2, h3] at h
      | ok repo =>
        cases h4 : w.pushHead repo with
        | some e => simp [h1, h2, h3, h4] at h
        | none =>
          cases h5 : w.fileHistoryWalk ⟨repo, true, SortMode.time⟩
              (relative w.cwd gitPath filePath) 100000 with
          | error e => simp [h1, h2, h3, h4, h5] at h
          | ok l =>
            simp only [h1, h2, h3, h4, h5, Except.ok.injEq] at h
            subst h
            refine ⟨⟨repo, rfl, h5, ?_⟩, ?_⟩
            · constructor
              · intro hd
                exact ⟨l, h5, hd⟩
              · rintro ⟨l2, hl2, hd⟩
                rw [h5] at hl2
                simp only [Except.ok.injEq] at hl2
                exact hl2 ▸ hd
            · simp only [h4, h5]

/-- Witness of C8: the two commits of `/home/repo/src/a.txt` in `homeRepo`. -/
theorem readHistory_returns_engine_walk_witness :
    (readHistory homeRepo "/home/repo/src/a.txt".toList "/home/repo".toList).1 =
        .ok [⟨"c3", 30⟩, ⟨"c1", 10⟩] ∧
      (readHistory homeRepo "/home/repo/src/a.txt".toList "/home/repo".toList).2 =
        [Event.access "/home/repo/src/a.txt".toList, Event.access "/home/repo".toList,
          Event.repositoryOpen "/home/repo".toList, Event.createRevWalk, Event.pushHead,
          Event.sorting SortMode.time,
          Event.fileHistoryWalk
            (relative homeRepo.cwd "/home/repo".toList "/home/repo/src/a.txt".toList) 100000] :=
  ⟨by decide,
    (readHistory_returns_engine_walk homeRepo "/home/repo/src/a.txt".toList "/home/repo".toList
      [⟨"c3", 30⟩, ⟨"c1", 10⟩] (by decide)).2⟩

/-! ## The path handed to the walk -/

theorem foldl_normalizeStep_proper_any (b : Bool) (segs : List Path) (res : List Path)
    (hsegs : ∀ x ∈ segs, Proper x) :
    segs.foldl (normalizeStep b) res = res ++ segs := by
  induction segs generalizing res with
  | nil => simp
  | cons a t ih =>
    simp only [List.foldl_cons]
    rw [normalizeStep_proper_any b res a (hsegs a (by simp)),
      ih _ (fun x hx => hsegs x (by simp [hx]))]
    simp

theorem normalizeSegs_ofSegs (b : Bool) (s : List Path) (h : ∀ x ∈ s, Proper x) :
    normalizeSegs b (ofSegs s) = s := by
  unfold normalizeSegs ofSegs
  have e : splitSlash ('/' :: joinSlash s) = [] :: splitSlash (joinSlash s) := by
    simp [splitSlash]
  have e0 : normalizeStep b [] [] = [] := by simp [normalizeStep]
  rw [e, List.foldl_cons, e0]
  by_cases hs : s = []
  · subst hs
    simp [joinSlash, splitSlash, normalizeStep]
  · rw [splitSlash_joinSlash s hs (fun x hx => (h x hx).2.1),
      foldl_normalizeStep_proper_any b s [] h]
    simp

theorem resolve_single (cwd p : Path) (hp : isAbsolute p = true) :
    resolve cwd [p] = ofSegs (segments p) := by
  have hp0 : p ≠ [] := by
    intro e
    subst e
    simp [isAbsolute] at hp
  have e : resolveLoop cwd [p] [] = (p ++ ['/'], true) := by
    simp [resolveLoop, hp, hp0]
  unfold resolve
  simp only [List.reverse_cons, List.reverse_nil, List.nil_append, e, if_true, Bool.not_true,
    normalizeString, normalizeSegs, ofSegs, segments]
  rw [show p ++ ['/'] = p ++ '/' :: [] from rfl, splitSlash_append_slash, List.foldl_append]
  simp [splitSlash, normalizeStep_nil]

theorem resolve_pair_nil (cwd p : Path) (hp : isAbsolute p = true) :
    resolve cwd [p, []] = ofSegs (segments p) := by
  rw [← resolve_single cwd p hp]
  simp [resolve, resolveLoop]

theorem commonSegs_take (s : List Path) (k : Nat) :
    commonSegs (s.take k) s = (s.take k).length := by
  induction s generalizing k with
  | nil => simp [commonSegs]
  | cons a t ih =>
    cases k with
    | zero => simp [commonSegs]
    | succ k => simp [commonSegs, ih k]

theorem take_append_drop_take (s : List Path) (k : Nat) :
    s.take k ++ s.drop (s.take k).length = s := by
  by_cases hk : k ≤ s.length
  · rw [List.length_take, Nat.min_eq_left hk]
    exact List.take_append_drop k s
  · have hk2 : s.length ≤ k := by omega
    rw [List.take_of_length_le hk2]
    simp

/-- The relative path from a directory on the way to `f`: it is made of the
segments of `f` that come after those of the directory. -/
theorem relative_below (cwd R f : Path) (hR : isAbsolute R = true) (hf : isAbsolute f = true)
    (k : Nat) (hk : segments R = (segments f).take k) :
    ∃ rest, relative cwd R f = joinSlash rest ∧ segments R ++ rest = segments f := by
  have hN := segments_proper f
  have hRp := segments_proper R
  unfold relative
  by_cases h1 : R = f
  · exact ⟨[], by simp [h1, joinSlash], by simp [h1]⟩
  · rw [if_neg h1]
    simp only [resolve_single cwd R hR, resolve_single cwd f hf]
    by_cases h2 : ofSegs (segments R) = ofSegs (segments f)
    · refine ⟨[], by simp [h2, joinSlash], ?_⟩
      have := congrArg segments h2
      rw [segments_ofSegs _ hRp, segments_ofSegs _ hN] at this
      simp [this]
    · rw [if_neg h2, normalizeSegs_ofSegs true _ hRp, normalizeSegs_ofSegs true _ hN, hk,
        commonSegs_take]
      refine ⟨(segments f).drop ((segments f).take k).length, by simp, ?_⟩
      exact take_append_drop_take _ k

theorem head?_joinSlash (s : List Path) (h : ∀ x ∈ s, Proper x) :
    (joinSlash s).head? ≠ some '/' := by
  match s, h with
  | [], _ => simp [joinSlash]
  | [a], h =>
    obtain ⟨h1, h2, _⟩ := h a (by simp)
    cases a with
    | nil => exact absurd rfl h1
    | cons c cs =>
      simp only [joinSlash, List.head?_cons, ne_eq, Option.some.injEq]
      intro e
      exact h2 (by simp [e])
  | a :: b :: t, h =>
    obtain ⟨h1, h2, _⟩ := h a (by simp)
    cases a with
    | nil => exact absurd rfl h1
    | cons c cs =>
      simp only [joinSlash, List.cons_append, List.head?_cons, ne_eq, Option.some.injEq]
      intro e
      exact h2 (by simp [e])

theorem isAbsolute_eq_false_of_head? (p : Path) (h : p.head? ≠ some '/') :
    isAbsolute p = false := by
  cases p with
  | nil => rfl
  | cons c cs =>
    simp only [List.head?_cons, ne_eq, Option.some.injEq] at h
    simp [isAbsolute, h]

/-- What follows for the relative path once the root is known to lie on the
way to the file. -/
theorem relative_facts (cwd R f : Path) (hR : isAbsolute R = true) (hf : isAbsolute f = true)
    (k : Nat) (hk : segments R = (segments f).take k) :
    (relative cwd R f).head? ≠ some '/' ∧ dotDot ∉ splitSlash (relative cwd R f) ∧
      resolve cwd [R, relative cwd R f] = resolve cwd [f] := by
  obtain ⟨rest, hrel, hcat⟩ := relative_below cwd R f hR hf k hk
  have hN := segments_proper f
  have hrest : ∀ x ∈ rest, Proper x := fun x hx => hN x (by rw [← hcat]; simp [hx])
  have hhead := head?_joinSlash rest hrest
  rw [hrel, resolve_single cwd f hf]
  refine ⟨hhead, ?_, ?_⟩
  · by_cases hr : rest = []
    · subst hr
      simp [joinSlash, splitSlash, dotDot]
    · rw [splitSlash_joinSlash rest hr (fun x hx => (hrest x hx).2.1)]
      intro hm
      exact (hrest _ hm).2.2.2 rfl
  · by_cases hr : rest = []
    · subst hr
      simp only [joinSlash, List.append_nil] at hcat ⊢
      rw [resolve_pair_nil cwd R hR, hcat]
    · rw [resolve_absolute_pair cwd R _ hR (joinSlash_ne_nil rest hr hrest)
        (isAbsolute_eq_false_of_head? _ hhead),
        splitSlash_joinSlash rest hr (fun x hx => (hrest x hx).2.1),
        foldl_normalizeStep_proper rest _ hrest, hcat]

/-- The only path `readHistory` ever hands to the walk. -/
theorem readHistory_walk_path (w : World) (filePath gitPath path : Path) (n : Nat)
    (h : Event.fileHistoryWalk path n ∈ (readHistory w filePath gitPath).2) :
    path = relative w.cwd gitPath filePath := by
  unfold readHistory at h
  dsimp only at h
  repeat' split at h
  all_goals simp at h
  all_goals exact h.1

/-- C9: the path `readHistory(filePath, R)` hands to the walk is
`relative(R, filePath)`; for an absolute `filePath` and a root `R` that is
`filePath`, a directory on the way from the file-system root to it (under any
spelling), or the result of `resolveGitFolder(filePath)`, this path has no
leading separator and no `..` segment, and resolving it against `R` gives the
normalized `filePath`. -/
theorem relative_from_root_is_normalized (w : World) (filePath R : Path)
    (hf : isAbsolute filePath = true)
    (hR : (isAbsolute R = true ∧ ∃ k, segments R = (segments filePath).take k) ∨
      (resolveGitFolder w filePath).1 = .ok R) :
    (∀ path n, Event.fileHistoryWalk path n ∈ (readHistory w filePath R).2 →
        path = relative w.cwd R filePath) ∧
      (relative w.cwd R filePath).head? ≠ some '/' ∧
      dotDot ∉ splitSlash (relative w.cwd R filePath) ∧
      resolve w.cwd [R, relative w.cwd R filePath] = resolve w.cwd [filePath] := by
  have hN := segments_proper filePath
  refine ⟨fun path n h => readHistory_walk_path w filePath R path n h, ?_⟩
  have key : isAbsolute R = true ∧ ∃ k, segments R = (segments filePath).take k := by
    rcases hR with hR | hR
    · exact hR
    · rcases (resolveGitFolder_ok w filePath R hR).1 with h | ⟨k, _, h⟩
      · subst h
        exact ⟨hf, (segments R).length, by simp⟩
      · rw [h]
        exact ⟨isAbsolute_ofSegs _, k,
          segments_ofSegs _ (fun x hx => hN x (List.mem_of_mem_take hx))⟩
  obtain ⟨hRabs, k, hk⟩ := key
  exact relative_facts w.cwd R filePath hRabs hf k hk

/-- Witness of C9: the root found by the search from `/home/repo/src/a.txt` in
`homeRepo`; the relative path is `src/a.txt`. -/
theorem relative_from_root_is_normalized_witness :
    isAbsolute "/home/repo/src/a.txt".toList = true ∧
      (resolveGitFolder homeRepo "/home/repo/src/a.txt".toList).1 = .ok "/home/repo".toList ∧
      relative homeRepo.cwd "/home/repo".toList "/home/repo/src/a.txt".toList =
        "src/a.txt".toList ∧
      (relative homeRepo.cwd "/home/repo".toList "/home/repo/src/a.txt".toList).head? ≠
        some '/' ∧
      dotDot ∉ splitSlash
        (relative homeRepo.cwd "/home/repo".toList "/home/repo/src/a.txt".toList) ∧
      resolve homeRepo.cwd
          ["/home/repo".toList,
            relative homeRepo.cwd "/home/repo".toList "/home/repo/src/a.txt".toList] =
        resolve homeRepo.cwd ["/home/repo/src/a.txt".toList] :=
  ⟨by decide, by decide, by decide,
    (relative_from_root_is_normalized homeRepo "/home/repo/src/a.txt".toList "/home/repo".toList
      (by decide) (Or.inr (by decide))).2⟩

end GitHistory
